import Mathlib

/-!
Verification of the story-reader core (src/app.js): the template parser
`parseTemplate` (lines 71-163) and the inline markup renderer
`markdownToHtml` (lines 169-186), embedded shallowly over lists of
characters.  Regular-expression matching is modelled by dedicated
matching functions that follow the JavaScript backtracking semantics of
each concrete pattern appearing in the source.
-/

set_option maxHeartbeats 1000000

namespace StoryReader

/-- The JavaScript whitespace class: the code points matched by the regex
class \s and stripped by String.prototype.trim (WhiteSpace and
LineTerminator productions). -/
def isWS (c : Char) : Bool :=
  c = ' ' || c = '\t' || c = '\n' || c = '\r' ||
  c.toNat = 11 || c.toNat = 12 || c.toNat = 0xa0 || c.toNat = 0x1680 ||
  (0x2000 ≤ c.toNat && c.toNat ≤ 0x200a) ||
  c.toNat = 0x2028 || c.toNat = 0x2029 || c.toNat = 0x202f ||
  c.toNat = 0x205f || c.toNat = 0x3000 || c.toNat = 0xfeff

/-- The JavaScript line terminators: the code points NOT matched by the
regex dot. -/
def isTerm (c : Char) : Bool :=
  c = '\n' || c = '\r' || c.toNat = 0x2028 || c.toNat = 0x2029

/-- String.prototype.trim on a list of characters. -/
def jsTrim (l : List Char) : List Char :=
  ((l.dropWhile isWS).reverse.dropWhile isWS).reverse

/-- text.split('\n') (source line 72). -/
def splitNl (acc : List Char) : List Char → List (List Char)
  | c :: t => if c = '\n' then acc.reverse :: splitNl [] t else splitNl (c :: acc) t
  | [] => [acc.reverse]

/-- parseInt on a run of decimal digits. -/
def digitsVal (ds : List Char) : Nat :=
  ds.foldl (fun a c => a * 10 + (c.toNat - 48)) 0

/-- The tail \s*(\d+)\.\s*(.+) of the section-heading regex (source line 85),
applied after the leading hash marks.  The quantifier backtracking is
deterministic here because no whitespace character is a digit and the dot of
the regex cannot match a line terminator. -/
def headerAfterHash (r : List Char) : Option (Nat × List Char) :=
  let r1 := r.dropWhile isWS
  let ds := r1.takeWhile Char.isDigit
  if ds = [] then none
  else
    match r1.drop ds.length with
    | '.' :: r2 =>
        let r3 := r2.dropWhile isWS
        let content := r3.takeWhile (fun c => !isTerm c)
        if content = [] then none else some (digitsVal ds, content)
    | _ => none

/-- trimmed.match(/^#{2,3}\s*(\d+)\.\s*(.+)/i) (source line 85): the number of
group 1 and the raw text of group 2.  The greedy #-count tries three hash
marks first and backtracks to two. -/
def headerNum (l : List Char) : Option (Nat × List Char) :=
  match l with
  | '#' :: '#' :: '#' :: r =>
      match headerAfterHash r with
      | some x => some x
      | none => headerAfterHash ('#' :: r)
  | '#' :: '#' :: r => headerAfterHash r
  | _ => none

/-- The separator class [:\s：] used by the title and vocabulary patterns. -/
def isSepClass (c : Char) : Bool := c = ':' || c = '：' || isWS c

/-- Backtracking for the regex tail [:\s：]+(.+): separator lengths are tried
from k down to 1 and the first non-empty (.+) capture wins. -/
def capTry : Nat → List Char → Option (List Char)
  | 0, _ => none
  | k + 1, rest =>
      let content := (rest.drop (k + 1)).takeWhile (fun c => !isTerm c)
      if content = [] then capTry k rest else some content

/-- Matching [:\s：]+(.+) at the start of rest, greedy separator first. -/
def capAfterClass (rest : List Char) : Option (List Char) :=
  capTry (rest.takeWhile isSepClass).length rest

/-- Case-insensitive match of the literal Title at the head of the list,
followed by [:\s：]+(.+). -/
def titleCapHere : List Char → Option (List Char)
  | t1 :: t2 :: t3 :: t4 :: t5 :: rest =>
      if (t1 = 'T' || t1 = 't') && (t2 = 'I' || t2 = 'i') && (t3 = 'T' || t3 = 't') &&
         (t4 = 'L' || t4 = 'l') && (t5 = 'E' || t5 = 'e') then
        capAfterClass rest
      else none
  | _ => none

/-- sectionContent.match(/Title[:\s：]+(.+)/i) (source line 93): the group 1
capture of the leftmost match. -/
def titleCap : List Char → Option (List Char)
  | [] => none
  | c :: t =>
      match titleCapHere (c :: t) with
      | some cap => some cap
      | none => titleCap t

/-- Non-greedy scan for (.+?)\*\*[:\s：]+(.+) (source line 131): the word
grows one character at a time until a closing ** whose tail also matches is
found; the word characters must not be line terminators. -/
def vocabCore (acc : List Char) : List Char → Option (List Char × List Char)
  | c :: t =>
      if c = '*' && t.head? = some '*' && !acc.isEmpty then
        match capAfterClass t.tail with
        | some m => some (acc.reverse, m)
        | none => vocabCore (c :: acc) t
      else if isTerm c then none
      else vocabCore (c :: acc) t
  | [] => none

/-- trimmed.match(/^[\*\-]\s*\*\*(.+?)\*\*[:\s：]+(.+)/) (source line 131):
the word and meaning captures. -/
def vocabMatch (l : List Char) : Option (List Char × List Char) :=
  match l with
  | b :: rest =>
      if b = '*' || b = '-' then
        match rest.dropWhile isWS with
        | '*' :: '*' :: r2 => vocabCore [] r2
        | _ => none
      else none
  | [] => none

/-- Boolean test that key is an initial segment of the second list. -/
def keyPref : List Char → List Char → Bool
  | [], _ => true
  | _ :: _, [] => false
  | a :: ka, b :: kb => (a = b) && keyPref ka kb

/-- The regex fragment .*KEY with the dot excluding line terminators: the key
must occur before any line terminator. -/
def noTermKey (key : List Char) : List Char → Bool
  | [] => keyPref key []
  | c :: t => keyPref key (c :: t) || (!isTerm c && noTermKey key t)

/-- trimmed.match(/^#{2,3}\s*.*KEY/) (source lines 110 and 116): at least two
leading hash marks, then the key before any line terminator.  A third or
later hash mark and everything else before the key fall under .*, and since
the key starts with a non-whitespace character the greedy \s* run can be
taken maximal. -/
def kwMatch (key : List Char) (l : List Char) : Bool :=
  match l with
  | '#' :: '#' :: r => noTermKey key (r.dropWhile isWS)
  | _ => false

/-- The alternate Japanese-translation heading test (source line 110). -/
def kwTransHeader (l : List Char) : Bool := kwMatch "日本語訳".data l

/-- The alternate vocabulary heading test (source line 116). -/
def kwVocabHeader (l : List Char) : Bool := kwMatch "重要単語".data l

/-- trimmed.match(/^#{2,3}\s/) (source line 140). -/
def subHeaderTest (l : List Char) : Bool :=
  match l with
  | '#' :: '#' :: '#' :: c :: _ => isWS c
  | '#' :: '#' :: c :: _ => isWS c
  | _ => false

/-- trimmed.replace(/^#{2,3}\s*/, '') (source line 142). -/
def stripMarker (l : List Char) : List Char :=
  match l with
  | '#' :: '#' :: '#' :: r => r.dropWhile isWS
  | '#' :: '#' :: r => r.dropWhile isWS
  | _ => l

/-- Does タイトル followed by one of ：: start here? -/
def titleTagAt (l : List Char) : Bool :=
  match l with
  | 'タ' :: 'イ' :: 'ト' :: 'ル' :: c :: _ => c = '：' || c = ':'
  | _ => false

/-- .replace(/タイトル[：:]\s*/, '') (source line 142): remove the leftmost
occurrence of the label together with its colon and the whitespace run
after it. -/
def stripTitleTag : List Char → List Char
  | [] => []
  | c :: t =>
      if titleTagAt (c :: t) then ((c :: t).drop 5).dropWhile isWS
      else c :: stripTitleTag t

/-- The parser's section cursor (currentSection, source line 77). -/
inductive PSec where
  | unset
  | title
  | english
  | vocab
  | translation
deriving DecidableEq

/-- The mutable locals of parseTemplate (source lines 73-77). -/
structure ScanState where
  title : List Char
  english : List Char
  vocab : List (List Char × List Char)
  translation : List Char
  current : PSec
deriving DecidableEq

def initState : ScanState := ⟨[], [], [], [], PSec.unset⟩

/-- The keyword-heading checks and the per-section accumulation applied to a
line not consumed by a recognized numbered heading (source lines 109-149). -/
def collectLine (st : ScanState) (line trimmed : List Char) : ScanState :=
  if kwTransHeader trimmed then { st with current := PSec.translation }
  else if kwVocabHeader trimmed then { st with current := PSec.vocab }
  else
    match st.current with
    | PSec.title =>
        if !trimmed.isEmpty && st.title.isEmpty then { st with title := trimmed } else st
    | PSec.english => { st with english := st.english ++ line ++ ['\n'] }
    | PSec.vocab =>
        match vocabMatch trimmed with
        | some (w, m) => { st with vocab := st.vocab ++ [(jsTrim w, jsTrim m)] }
        | none => st
    | PSec.translation =>
        if subHeaderTest trimmed then
          let s := stripTitleTag (stripMarker trimmed)
          if s.isEmpty then st
          else { st with translation := st.translation ++ ('*' :: '*' :: s) ++ ('*' :: '*' :: '\n' :: '\n' :: []) }
        else { st with translation := st.translation ++ line ++ ['\n'] }
    | PSec.unset => st

/-- Title extraction for a section-1 heading (source lines 93-94). -/
def titleFromContent (sectionContent : List Char) : List Char :=
  match titleCap sectionContent with
  | some cap => jsTrim cap
  | none => sectionContent

/-- One iteration of the parser loop body (source lines 79-150). -/
def processLine (st : ScanState) (line : List Char) : ScanState :=
  let trimmed := jsTrim line
  match headerNum trimmed with
  | some (n, rawContent) =>
      if n = 1 then
        { st with title := titleFromContent (jsTrim rawContent), current := PSec.title }
      else if n = 2 then { st with current := PSec.english }
      else if n = 3 then { st with current := PSec.vocab }
      else if n = 4 then { st with current := PSec.translation }
      else collectLine st line trimmed
  | none => collectLine st line trimmed

/-- One vocabulary entry of the parse result. -/
structure VocabItem where
  word : String
  meaning : String
deriving DecidableEq

/-- The structured record returned by parseTemplate (source lines 157-162). -/
structure ParsedChapter where
  title : String
  english : String
  vocab : List VocabItem
  translation : String
deriving DecidableEq

/-- The full line scan of parseTemplate (source lines 72-150). -/
def scanText (text : String) : ScanState :=
  (splitNl [] text.data).foldl processLine initState

/-- parseTemplate (source lines 71-163); the null return is modelled as none. -/
def parseTemplate (text : String) : Option ParsedChapter :=
  let fin := scanText text
  if fin.title.isEmpty || (jsTrim fin.english).isEmpty then none
  else
    some { title := String.mk fin.title,
           english := String.mk (jsTrim fin.english),
           vocab := fin.vocab.map (fun p => ⟨String.mk p.1, String.mk p.2⟩),
           translation := String.mk (jsTrim fin.translation) }

/-- Non-greedy scan for the bold body (.+?)\*\* (source line 174): close at
the first ** once at least one word character was read. -/
def boldScan (acc : List Char) : List Char → Option (List Char × List Char)
  | c :: t =>
      if c = '*' && t.head? = some '*' && !acc.isEmpty then some (acc.reverse, t.tail)
      else if isTerm c then none
      else boldScan (c :: acc) t
  | [] => none

/-- One global pass of .replace(/\*\*(.+?)\*\*\/g, strong wrapper)
(source line 174), driven by a step-count fuel.  Every step strictly
shortens the list, so a fuel equal to the input length (as boldGo supplies)
is never exhausted: the fuel-0 fallback is dead code. -/
def boldGoF : Nat → List Char → List Char
  | 0, l => l
  | _ + 1, [] => []
  | fuel + 1, c :: t =>
      if c = '*' && t.head? = some '*' then
        match boldScan [] t.tail with
        | some (w, r) => "<strong>".data ++ w ++ "</strong>".data ++ boldGoF fuel r
        | none => c :: boldGoF fuel t
      else c :: boldGoF fuel t

def boldGo (l : List Char) : List Char := boldGoF l.length l

/-- Scan for the italic body ([^*]+?)\*(?!\*) (source line 176): the class
excludes the star, so the capture is the run up to the next star, and a
double star there kills the match at this start position. -/
def italScan (acc : List Char) : List Char → Option (List Char × List Char)
  | c :: t =>
      if c = '*' then
        if acc.isEmpty then none
        else if t.head? = some '*' then none
        else some (acc.reverse, t)
      else italScan (c :: acc) t
  | [] => none

/-- One global pass of .replace(/(?<!\*)\*([^*]+?)\*(?!\*)\/g, em wrapper)
(source line 176); prev is the original character just before the current
position, for the lookbehind.  The fuel plays the same dead role as in
boldGoF. -/
def italGoF : Nat → Option Char → List Char → List Char
  | 0, _, l => l
  | _ + 1, _, [] => []
  | fuel + 1, prev, c :: t =>
      if c = '*' && prev ≠ some '*' then
        match italScan [] t with
        | some (w, r) => "<em>".data ++ w ++ "</em>".data ++ italGoF fuel (some '*') r
        | none => c :: italGoF fuel (some c) t
      else c :: italGoF fuel (some c) t

def italGo (prev : Option Char) (l : List Char) : List Char := italGoF l.length prev l

/-- .split(/\n{2,}/) (source line 178): cut at each maximal run of two or
more newlines.  The fuel plays the same dead role as in boldGoF; the fuel-0
fallback keeps the shape of the base case. -/
def paraSplitF : Nat → List Char → List Char → List (List Char)
  | 0, acc, _ => [acc.reverse]
  | _ + 1, acc, [] => [acc.reverse]
  | fuel + 1, acc, c :: t =>
      if c = '\n' && t.head? = some '\n' then
        acc.reverse :: paraSplitF fuel [] (t.dropWhile (fun x => x = '\n'))
      else paraSplitF fuel (c :: acc) t

def paraSplit (acc : List Char) (l : List Char) : List (List Char) := paraSplitF l.length acc l

/-- Array.prototype.join('\n') (source line 180). -/
def joinNl : List (List Char) → List Char
  | [] => []
  | [p] => p
  | p :: ps => p ++ '\n' :: joinNl ps

/-- One global pass of .replace(/(?<!<\/p>)\n(?!<p>)/g, '<br>')
(source line 183); pre is the reverse of the original text before the
current position, for the lookbehind. -/
def brGo (pre : List Char) : List Char → List Char
  | c :: t =>
      if c = '\n' && !keyPref ['>', 'p', '/', '<'] pre && !keyPref "<p>".data t then
        "<br>".data ++ brGo (c :: pre) t
      else c :: brGo (c :: pre) t
  | [] => []

/-- The paragraph wrapper of source line 179. -/
def paraWrap (p : List Char) : List Char := "<p>".data ++ jsTrim p ++ "</p>".data

/-- The four renderer passes of source lines 172-183 in order. -/
def mdPipeline (l : List Char) : List Char :=
  brGo [] (joinNl ((paraSplit [] (italGo none (boldGo l))).map paraWrap))

/-- markdownToHtml (source lines 169-186). -/
def markdownToHtml (text : String) : String :=
  if text = "" then "" else String.mk (mdPipeline text.data)

/-- markdownToHtml on a possibly-absent argument: the guard of source line
170 returns the empty fragment for undefined exactly as for the empty
string. -/
def markdownToHtmlOpt : Option String → String
  | none => ""
  | some t => markdownToHtml t

/-- Does this trimmed line trigger one of the three section-boundary rules
of the parser (numbered heading 1-4, translation keyword, vocabulary
keyword)? -/
def boundaryLine (trimmed : List Char) : Bool :=
  (match headerNum trimmed with
   | some (n, _) => n = 1 || n = 2 || n = 3 || n = 4
   | none => false) || kwTransHeader trimmed || kwVocabHeader trimmed

/-- The accumulated body text produced by a run of plain lines in the
english section: each line followed by a newline. -/
def bodyAcc : List (List Char) → List Char
  | [] => []
  | l :: ls => l ++ '\n' :: bodyAcc ls

/-- An entry as stored by the scanner: both components trimmed, meaning
non-empty. -/
def GoodEntry (p : List Char × List Char) : Prop :=
  p.1 = jsTrim p.1 ∧ p.2 = jsTrim p.2 ∧ p.2 ≠ []

section Helpers

theorem head?_dropWhile_false (p : Char → Bool) :
    ∀ (l : List Char) (c : Char), (l.dropWhile p).head? = some c → p c = false := by
  intro l
  induction l with
  | nil => intro c h; simp [List.dropWhile] at h
  | cons a t ih =>
      intro c h
      rw [List.dropWhile] at h
      by_cases hp : p a
      · exact ih c (by simpa [hp] using h)
      · simp [hp] at h
        simp [← h, hp]

theorem dropWhile_idem {p : Char → Bool} (l : List Char) :
    (l.dropWhile p).dropWhile p = l.dropWhile p := by
  cases h : l.dropWhile p with
  | nil => rfl
  | cons c t =>
      have hc : p c = false := head?_dropWhile_false p l c (by simp [h])
      simp [List.dropWhile, hc]

theorem dropWhile_ws_append {ws : List Char} (l : List Char)
    (h : ∀ c ∈ ws, isWS c = true) :
    (ws ++ l).dropWhile isWS = l.dropWhile isWS := by
  induction ws with
  | nil => rfl
  | cons c t ih =>
      have hc : isWS c = true := h c (by simp)
      simp only [List.cons_append, List.dropWhile, hc]
      exact ih (fun d hd => h d (by simp [hd]))

theorem dropWhile_last_stays {c : Char} (hc : isWS c = false) :
    ∀ m : List Char, ∃ s, (m ++ [c]).dropWhile isWS = s ++ [c] := by
  intro m
  induction m with
  | nil => exact ⟨[], by simp [List.dropWhile, hc]⟩
  | cons a t ih =>
      by_cases ha : isWS a
      · obtain ⟨s, hs⟩ := ih
        exact ⟨s, by simp [List.dropWhile, ha, hs]⟩
      · exact ⟨a :: t, by simp [List.dropWhile, ha]⟩

theorem jsTrim_head_nonws {c : Char} (t : List Char) (hc : isWS c = false) :
    jsTrim (c :: t) ≠ [] := by
  unfold jsTrim
  have h1 : (c :: t).dropWhile isWS = c :: t := by simp [List.dropWhile, hc]
  rw [h1]
  have h2 : (c :: t).reverse = t.reverse ++ [c] := by simp
  rw [h2]
  obtain ⟨s, hs⟩ := dropWhile_last_stays hc t.reverse
  rw [hs]
  simp

theorem jsTrim_single_nonws {c : Char} (hc : isWS c = false) : jsTrim [c] = [c] := by
  unfold jsTrim
  simp [List.dropWhile, hc]

theorem jsTrim_rev_head_nonws {l : List Char} {c : Char}
    (h : (jsTrim l).reverse.head? = some c) : isWS c = false := by
  unfold jsTrim at h
  rw [List.reverse_reverse] at h
  exact head?_dropWhile_false isWS ((l.dropWhile isWS).reverse) c h

theorem jsTrim_idem (l : List Char) : jsTrim (jsTrim l) = jsTrim l := by
  unfold jsTrim
  cases hA : l.dropWhile isWS with
  | nil => simp
  | cons a t =>
      have ha : isWS a = false := head?_dropWhile_false isWS l a (by rw [hA]; simp)
      have hrev : (a :: t).reverse = t.reverse ++ [a] := by simp
      obtain ⟨s, hs⟩ := dropWhile_last_stays ha t.reverse
      rw [hrev, hs]
      have h1 : ((s ++ [a]).reverse).dropWhile isWS = (s ++ [a]).reverse := by
        rw [show (s ++ [a]).reverse = a :: s.reverse by simp]
        simp [List.dropWhile, ha]
      rw [h1, List.reverse_reverse, ← hs, dropWhile_idem]

theorem boldScan_lt : ∀ (l acc w r : List Char), boldScan acc l = some (w, r) → r.length < l.length := by
  intro l
  induction l with
  | nil => intro acc w r h; simp [boldScan] at h
  | cons c t ih =>
      intro acc w r h
      rw [boldScan] at h
      split at h
      · cases h
        cases t with
        | nil => simp
        | cons d t2 => simp only [List.tail_cons, List.length_cons]; omega
      · split at h
        · exact absurd h (by simp)
        · have := ih _ _ _ h
          simp only [List.length_cons]
          omega

theorem italScan_lt : ∀ (l acc w r : List Char), italScan acc l = some (w, r) → r.length < l.length := by
  intro l
  induction l with
  | nil => intro acc w r h; simp [italScan] at h
  | cons c t ih =>
      intro acc w r h
      rw [italScan] at h
      split at h
      · split at h
        · exact absurd h (by simp)
        · split at h
          · exact absurd h (by simp)
          · cases h
            simp
      · have := ih _ _ _ h
        simp only [List.length_cons]
        omega

end Helpers

/-- C1: the renderer performs no escaping of markup-significant characters:
at the failing input the angle brackets of the original text pass through
verbatim into the output fragment as structural markup, contradicting the
escaping contract of the specification. -/
theorem c1_render_unescaped :
    markdownToHtml "<b>x</b>" = "<p><b>x</b></p>" := by decide

/-- C5: scenario A parses to exactly the expected record. -/
theorem c5_scenarioA :
    parseTemplate "### 1. Title: The Lost Key\n### 2. English Short Story\nShe found a **rusty** key.\n### 3. 重要単語ピックアップ\n* **rusty**: covered with rust\n### 4. 日本語訳\n彼女は錆びた鍵を見つけた。" =
      some ⟨"The Lost Key", "She found a **rusty** key.",
            [⟨"rusty", "covered with rust"⟩], "彼女は錆びた鍵を見つけた。"⟩ := by decide

/-- C8: the renderer is a total function by construction (it returns a
fragment for every input), and empty or undefined input yields exactly the
empty fragment. -/
theorem c8_render_total_empty :
    markdownToHtmlOpt none = "" ∧ markdownToHtmlOpt (some "") = "" := by decide

/-- C2: parseTemplate rejects exactly when the title extracted by the scan
is empty or the scanned body is empty after trimming; rejection is the none
result value (no record at all, and no exception: the embedding is a total
function). -/
theorem c2_reject_iff (text : String) :
    parseTemplate text = none ↔
      ((scanText text).title = [] ∨ jsTrim (scanText text).english = []) := by
  simp only [parseTemplate]
  by_cases h : ((scanText text).title.isEmpty || (jsTrim (scanText text).english).isEmpty) = true
  · rw [if_pos h]
    simp only [Bool.or_eq_true, List.isEmpty_iff] at h
    simpa using h
  · rw [if_neg h]
    simp only [Bool.or_eq_true, List.isEmpty_iff] at h
    push_neg at h
    simp [h.1, h.2]

/-- C3 fails on the code: a heading line whose integer is 5 falls through
the numbered dispatch without a continue and is collected verbatim into the
body, so its text does appear in collected content. -/
theorem c3_cex :
    parseTemplate "### 1. Title: T\n### 2. S\na\n### 5. extra\nb" =
      some ⟨"T", "a\n### 5. extra\nb", [], ""⟩ := by decide

/-- C3 amended: a heading line whose integer is not 1-4 is not a boundary of
the numbered scheme, but it is not discarded either: it receives exactly the
processing of a non-numbered line (keyword checks, then content collection);
in particular, with the body section active and no keyword in the line, the
heading line itself is appended to the body and the section is unchanged. -/
theorem c3_unknown_heading_falls_through (st : ScanState) (line : List Char)
    (n : Nat) (c : List Char)
    (hm : headerNum (jsTrim line) = some (n, c))
    (h1 : n ≠ 1) (h2 : n ≠ 2) (h3 : n ≠ 3) (h4 : n ≠ 4) :
    processLine st line = collectLine st line (jsTrim line) ∧
    (kwTransHeader (jsTrim line) = false → kwVocabHeader (jsTrim line) = false →
      st.current = PSec.english →
      (processLine st line).english = st.english ++ line ++ ['\n'] ∧
      (processLine st line).current = PSec.english) := by
  have hp : processLine st line = collectLine st line (jsTrim line) := by
    simp only [processLine]
    rw [hm]
    simp [h1, h2, h3, h4]
  refine ⟨hp, fun ht hv hcur => ?_⟩
  rw [hp]
  simp [collectLine, ht, hv, hcur]

/-- Witness for the amended C3 at a concrete state and line. -/
theorem c3_witness :
    headerNum (jsTrim "### 5. extra".data) = some (5, "extra".data) ∧
    (processLine ⟨"T".data, "a\n".data, [], [], PSec.english⟩ "### 5. extra".data).english =
      "a\n".data ++ "### 5. extra".data ++ ['\n'] ∧
    (processLine ⟨"T".data, "a\n".data, [], [], PSec.english⟩ "### 5. extra".data).current =
      PSec.english := by
  refine ⟨by decide, ?_⟩
  exact (c3_unknown_heading_falls_through ⟨"T".data, "a\n".data, [], [], PSec.english⟩
    "### 5. extra".data 5 "extra".data (by decide) (by decide) (by decide) (by decide)
    (by decide)).2 (by decide) (by decide) rfl

/-- C4 fails on the code: without the leading bullet the vocabulary pattern
does not match, so a bare bold-word glossary line adds no entry at all. -/
theorem c4_cex :
    parseTemplate "### 1. Title: T\n### 2. S\nbody\n### 3. V\n**rusty**: covered with rust" =
      some ⟨"T", "body", [], ""⟩ := by decide

/-- C6 fails on the code: while the translation section is active, a
numbered heading line (a boundary line) does change the active section, and
nothing is re-emitted into the translation text. -/
theorem c6_cex :
    (processLine ⟨"T".data, [], [], "x\n".data, PSec.translation⟩ "### 2. つづき".data).current =
        PSec.english ∧
    (processLine ⟨"T".data, [], [], "x\n".data, PSec.translation⟩ "### 2. つづき".data).translation =
        "x\n".data ∧
    PSec.english ≠ PSec.translation := by decide

/-- C9 fails on the code: a successful parse can contain a vocabulary entry
whose word is empty, because the bold span may hold only whitespace and the
captures are trimmed. -/
theorem c9_cex :
    parseTemplate "### 1. Title: T\n### 2. S\nbody\n### 3. V\n* ** **: m" =
      some ⟨"T", "body", [⟨"", "m"⟩], ""⟩ := by decide

section VocabShape

theorem headerNum_not_hash (c : Char) (r : List Char) (h : c ≠ '#') :
    headerNum (c :: r) = none := by
  unfold headerNum
  split
  · rename_i r' heq
    rw [List.cons.injEq] at heq
    exact absurd heq.1 h
  · rename_i r' heq
    rw [List.cons.injEq] at heq
    exact absurd heq.1 h
  · rfl

theorem kwMatch_not_hash (key : List Char) (c : Char) (r : List Char) (h : c ≠ '#') :
    kwMatch key (c :: r) = false := by
  unfold kwMatch
  split
  · rename_i r' heq
    rw [List.cons.injEq] at heq
    exact absurd heq.1 h
  · rfl

theorem takeWhile_all {p : Char → Bool} :
    ∀ l : List Char, (∀ c ∈ l, p c = true) → l.takeWhile p = l := by
  intro l h
  induction l with
  | nil => rfl
  | cons c t ih =>
      have hc := h c (by simp)
      simp [List.takeWhile, hc, ih (fun d hd => h d (by simp [hd]))]

theorem takeWhile_sep_append {s : List Char} (mh : Char) (mrest : List Char)
    (hs : ∀ c ∈ s, isSepClass c = true) (hmh : isSepClass mh = false) :
    (s ++ mh :: mrest).takeWhile isSepClass = s := by
  induction s with
  | nil => simp [List.takeWhile, hmh]
  | cons a t ih =>
      have ha := hs a (by simp)
      simp [List.takeWhile, ha, ih (fun d hd => hs d (by simp [hd]))]

theorem capAfterClass_exact {s : List Char} (mh : Char) (mrest : List Char)
    (hs0 : s ≠ []) (hs : ∀ c ∈ s, isSepClass c = true)
    (hmh : isSepClass mh = false)
    (hmt : ∀ c ∈ mh :: mrest, isTerm c = false) :
    capAfterClass (s ++ mh :: mrest) = some (mh :: mrest) := by
  unfold capAfterClass
  rw [takeWhile_sep_append mh mrest hs hmh]
  cases s with
  | nil => exact absurd rfl hs0
  | cons a t =>
      simp only [List.length_cons, capTry]
      have hdrop : ((a :: t) ++ mh :: mrest).drop (t.length + 1) = mh :: mrest :=
        List.drop_left (a :: t) (mh :: mrest)
      rw [hdrop, takeWhile_all _ (by simpa using hmt)]
      simp

theorem vocabCore_append (w : List Char) :
    ∀ (acc t m : List Char),
      (∀ c ∈ w, c ≠ '*' ∧ isTerm c = false) →
      (acc ≠ [] ∨ w ≠ []) →
      capAfterClass t = some m →
      vocabCore acc (w ++ '*' :: '*' :: t) = some (acc.reverse ++ w, m) := by
  induction w with
  | nil =>
      intro acc t m _ hne hcap
      have hacc : acc ≠ [] := by
        rcases hne with h | h
        · exact h
        · exact absurd rfl h
      rw [List.nil_append, vocabCore]
      simp [hacc, hcap, List.isEmpty_iff]
  | cons ch w ih =>
      intro acc t m hw hne hcap
      have hch := hw ch (by simp)
      have ih2 := ih (ch :: acc) t m (fun c hc => hw c (by simp [hc]))
        (Or.inl (by simp)) hcap
      rw [List.cons_append, vocabCore]
      simp [hch.1, hch.2, ih2]

theorem vocabMatch_shape (b : Char) (ws w s : List Char) (mh : Char) (mrest : List Char)
    (hb : b = '*' ∨ b = '-')
    (hws : ∀ c ∈ ws, isWS c = true)
    (hw0 : w ≠ []) (hw : ∀ c ∈ w, c ≠ '*' ∧ isTerm c = false)
    (hs0 : s ≠ []) (hsep : ∀ c ∈ s, isSepClass c = true)
    (hmh : isSepClass mh = false)
    (hmt : ∀ c ∈ mh :: mrest, isTerm c = false) :
    vocabMatch (b :: (ws ++ '*' :: '*' :: (w ++ '*' :: '*' :: (s ++ mh :: mrest)))) =
      some (w, mh :: mrest) := by
  have hcap : capAfterClass (s ++ mh :: mrest) = some (mh :: mrest) :=
    capAfterClass_exact mh mrest hs0 hsep hmh hmt
  have hcore : vocabCore [] (w ++ '*' :: '*' :: (s ++ mh :: mrest)) = some (w, mh :: mrest) := by
    have h := vocabCore_append w [] (s ++ mh :: mrest) (mh :: mrest) hw (Or.inr hw0) hcap
    simpa using h
  have hbb : (b = '*' || b = '-') = true := by
    rcases hb with h | h <;> simp [h]
  have hdrop : (ws ++ '*' :: '*' :: (w ++ '*' :: '*' :: (s ++ mh :: mrest))).dropWhile isWS
      = '*' :: '*' :: (w ++ '*' :: '*' :: (s ++ mh :: mrest)) := by
    rw [dropWhile_ws_append _ hws]
    simp [List.dropWhile, isWS]
  rw [vocabMatch]
  simp only [hbb, if_true, hdrop, hcore]

end VocabShape

/-- C4 amended: the leading bullet is required by the pattern.  (a) While the
vocabulary section is active, a line whose trimmed form is a '*' or '-'
bullet, whitespace, a bold-wrapped word, a separator run from [:\s：] and a
meaning appends exactly one entry, with word and meaning trimmed, at the end
of the vocabulary list (order kept, duplicates preserved, the other fields
untouched).  (b) A line the pattern does not match (and that triggers no
boundary rule) is silently skipped: the state is unchanged. -/
theorem c4_vocab_line_rules (st : ScanState) (line : List Char)
    (hcur : st.current = PSec.vocab) :
    (∀ (b : Char) (ws w s : List Char) (mh : Char) (mrest : List Char),
      jsTrim line = b :: (ws ++ '*' :: '*' :: (w ++ '*' :: '*' :: (s ++ mh :: mrest))) →
      (b = '*' ∨ b = '-') →
      (∀ c ∈ ws, isWS c = true) →
      w ≠ [] → (∀ c ∈ w, c ≠ '*' ∧ isTerm c = false) →
      s ≠ [] → (∀ c ∈ s, isSepClass c = true) →
      isSepClass mh = false → (∀ c ∈ mh :: mrest, isTerm c = false) →
      processLine st line = { st with vocab := st.vocab ++ [(jsTrim w, jsTrim (mh :: mrest))] }) ∧
    (vocabMatch (jsTrim line) = none → headerNum (jsTrim line) = none →
      kwTransHeader (jsTrim line) = false →
      processLine st line = st) := by
  constructor
  · intro b ws w s mh mrest hdecomp hb hws hw0 hw hs0 hsep hmh hmt
    have hbne : b ≠ '#' := by
      rcases hb with h | h <;> subst h <;> decide
    have hvm : vocabMatch (jsTrim line) = some (w, mh :: mrest) := by
      rw [hdecomp]
      exact vocabMatch_shape b ws w s mh mrest hb hws hw0 hw hs0 hsep hmh hmt
    have hhn : headerNum (jsTrim line) = none := by
      rw [hdecomp]; exact headerNum_not_hash b _ hbne
    have hkt : kwTransHeader (jsTrim line) = false := by
      rw [hdecomp]; exact kwMatch_not_hash _ b _ hbne
    have hkv : kwVocabHeader (jsTrim line) = false := by
      rw [hdecomp]; exact kwMatch_not_hash _ b _ hbne
    simp [processLine, collectLine, hhn, hkt, hkv, hcur, hvm]
  · intro hvm hhn hkt
    by_cases hkv : kwVocabHeader (jsTrim line) = true
    · cases st with
      | mk a bo c d e =>
          simp only [ScanState.current] at hcur
          subst hcur
          simp [processLine, collectLine, hhn, hkt, hkv]
    · have hkv' : kwVocabHeader (jsTrim line) = false := by
        revert hkv; cases kwVocabHeader (jsTrim line) <;> simp
      simp [processLine, collectLine, hhn, hkt, hkv', hcur, hvm]

/-- Witness for the amended C4 at a concrete state and line. -/
theorem c4_witness :
    jsTrim "* **rusty**: covered with rust".data =
      '*' :: ([' '] ++ '*' :: '*' :: ("rusty".data ++ '*' :: '*' ::
        (": ".data ++ 'c' :: "overed with rust".data))) ∧
    processLine ⟨"T".data, "x\n".data, [], [], PSec.vocab⟩ "* **rusty**: covered with rust".data =
      ⟨"T".data, "x\n".data, [("rusty".data, "covered with rust".data)], [], PSec.vocab⟩ := by
  refine ⟨by decide, ?_⟩
  have h := (c4_vocab_line_rules ⟨"T".data, "x\n".data, [], [], PSec.vocab⟩
      "* **rusty**: covered with rust".data rfl).1 '*' [' '] "rusty".data ": ".data
      'c' "overed with rust".data (by decide) (by decide) (by decide) (by decide)
      (by decide) (by decide) (by decide) (by decide) (by decide)
  rw [h]
  decide

/-- C6 amended: while the translation section is active, a line that is not
one of the three recognized boundary lines behaves as claimed: if it looks
like a heading (marker then whitespace) it is re-emitted into the
translation text as a bold sub-title on its own paragraph, with the heading
marker and the leftmost タイトル label stripped (or dropped entirely when
nothing remains), without changing the section; a non-heading line is
appended verbatim with a line terminator.  Boundary heading lines instead
follow the boundary rules (see the counterexample). -/
theorem c6_translation_line_rules (st : ScanState) (line : List Char)
    (hcur : st.current = PSec.translation)
    (hb : boundaryLine (jsTrim line) = false) :
    (processLine st line).current = PSec.translation ∧
    (processLine st line).title = st.title ∧
    (processLine st line).english = st.english ∧
    (processLine st line).vocab = st.vocab ∧
    (processLine st line).translation =
      st.translation ++
        (if subHeaderTest (jsTrim line) then
          (if stripTitleTag (stripMarker (jsTrim line)) = [] then []
           else ('*' :: '*' :: stripTitleTag (stripMarker (jsTrim line))) ++
                ('*' :: '*' :: '\n' :: '\n' :: []))
         else line ++ ['\n']) := by
  have hbb := hb
  unfold boundaryLine at hbb
  simp only [Bool.or_eq_false_iff] at hbb
  have hkt : kwTransHeader (jsTrim line) = false := hbb.1.2
  have hkv : kwVocabHeader (jsTrim line) = false := hbb.2
  have hmatch := hbb.1.1
  have hstep : processLine st line = collectLine st line (jsTrim line) := by
    simp only [processLine]
    cases hh : headerNum (jsTrim line) with
    | none => rfl
    | some nc =>
        obtain ⟨n, c⟩ := nc
        rw [hh] at hmatch
        simp only [Bool.or_eq_false_iff, decide_eq_false_iff_not] at hmatch
        simp [hmatch.1.1.1, hmatch.1.1.2, hmatch.1.2, hmatch.2]
  rw [hstep]
  by_cases hsh : subHeaderTest (jsTrim line) = true
  · by_cases hemp : stripTitleTag (stripMarker (jsTrim line)) = []
    · simp [collectLine, hkt, hkv, hcur, hsh, hemp, List.isEmpty_iff]
    · simp [collectLine, hkt, hkv, hcur, hsh, hemp, List.isEmpty_iff]
  · have hsh' : subHeaderTest (jsTrim line) = false := by
      revert hsh; cases subHeaderTest (jsTrim line) <;> simp
    simp [collectLine, hkt, hkv, hcur, hsh']

/-- Witness for the amended C6 at a concrete state and line: a heading line
carrying a タイトル label is re-emitted as a bold sub-title. -/
theorem c6_witness :
    boundaryLine (jsTrim "### タイトル：華の夢".data) = false ∧
    (processLine ⟨[], [], [], "x\n".data, PSec.translation⟩ "### タイトル：華の夢".data).translation =
      "x\n**華の夢**\n\n".data ∧
    (processLine ⟨[], [], [], "x\n".data, PSec.translation⟩ "### タイトル：華の夢".data).current =
      PSec.translation := by
  refine ⟨by decide, ?_, ?_⟩
  · have h := c6_translation_line_rules ⟨[], [], [], "x\n".data, PSec.translation⟩
      "### タイトル：華の夢".data rfl (by decide)
    rw [h.2.2.2.2]
    decide
  · exact (c6_translation_line_rules ⟨[], [], [], "x\n".data, PSec.translation⟩
      "### タイトル：華の夢".data rfl (by decide)).1

section ScenarioB

theorem splitNl_no_nl (l : List Char) (hnl : ∀ c ∈ l, c ≠ '\n') :
    ∀ (acc tail : List Char), splitNl acc (l ++ tail) = splitNl (l.reverse ++ acc) tail := by
  induction l with
  | nil => intro acc tail; simp
  | cons c t ih =>
      intro acc tail
      have hc : c ≠ '\n' := hnl c (by simp)
      rw [List.cons_append, splitNl, if_neg hc]
      rw [ih (fun d hd => hnl d (by simp [hd])) (c :: acc) tail]
      simp

theorem splitNl_joinNl : ∀ ls : List (List Char), ls ≠ [] →
    (∀ l ∈ ls, ∀ c ∈ l, c ≠ '\n') → splitNl [] (joinNl ls) = ls := by
  intro ls
  induction ls with
  | nil => intro h; exact absurd rfl h
  | cons l ls ih =>
      intro _ hnl
      cases ls with
      | nil =>
          have h := splitNl_no_nl l (hnl l (by simp)) [] []
          simp only [List.append_nil] at h
          simp [joinNl, h, splitNl]
      | cons l2 ls2 =>
          rw [show joinNl (l :: l2 :: ls2) = l ++ '\n' :: joinNl (l2 :: ls2) from rfl]
          rw [splitNl_no_nl l (hnl l (by simp)) [] ('\n' :: joinNl (l2 :: ls2))]
          rw [splitNl, if_pos rfl]
          rw [ih (by simp) (fun d hd => hnl d (by simp [hd]))]
          simp

theorem english_fold : ∀ (ls : List (List Char)) (st : ScanState),
    st.current = PSec.english →
    (∀ l ∈ ls, headerNum (jsTrim l) = none ∧ kwTransHeader (jsTrim l) = false ∧
      kwVocabHeader (jsTrim l) = false) →
    ls.foldl processLine st = { st with english := st.english ++ bodyAcc ls } := by
  intro ls
  induction ls with
  | nil => intro st hcur _; simp [bodyAcc]
  | cons l ls ih =>
      intro st hcur hp
      obtain ⟨hn, ht, hv⟩ := hp l (by simp)
      have hstep : processLine st l = { st with english := st.english ++ (l ++ ['\n']) } := by
        simp [processLine, hn, collectLine, ht, hv, hcur]
      rw [List.foldl_cons, hstep]
      rw [ih { st with english := st.english ++ (l ++ ['\n']) } hcur
        (fun d hd => hp d (by simp [hd]))]
      obtain ⟨ta, en, vo, tr, cu⟩ := st
      simp [bodyAcc]

end ScenarioB

/-- C7: (a) for every input whose scanned title and trimmed scanned body are
non-empty, parseTemplate succeeds, whatever the vocabulary list is — in
particular an empty vocabulary list is not a rejection; (b) an input
consisting of a title heading, a body heading and plain body lines (no
vocabulary or translation headings anywhere) yields a record with empty
vocabulary and empty translation text. -/
theorem c7_optional_sections :
    (∀ text : String, (scanText text).title ≠ [] → jsTrim (scanText text).english ≠ [] →
      parseTemplate text =
        some ⟨String.mk (scanText text).title, String.mk (jsTrim (scanText text).english),
              (scanText text).vocab.map (fun p => ⟨String.mk p.1, String.mk p.2⟩),
              String.mk (jsTrim (scanText text).translation)⟩) ∧
    (∀ ls : List (List Char),
      (∀ l ∈ ls, (∀ c ∈ l, c ≠ '\n') ∧ headerNum (jsTrim l) = none ∧
        kwTransHeader (jsTrim l) = false ∧ kwVocabHeader (jsTrim l) = false) →
      jsTrim (bodyAcc ls) ≠ [] →
      parseTemplate (String.mk (joinNl ("### 1. Title: The Cat".data ::
          "### 2. Story".data :: ls))) =
        some ⟨"The Cat", String.mk (jsTrim (bodyAcc ls)), [], ""⟩) := by
  constructor
  · intro text ht hb
    simp only [parseTemplate]
    rw [if_neg (by simp [List.isEmpty_iff, ht, hb])]
  · intro ls hls hbody
    have hsplit : splitNl [] (String.mk (joinNl ("### 1. Title: The Cat".data ::
        "### 2. Story".data :: ls))).data = "### 1. Title: The Cat".data ::
        "### 2. Story".data :: ls := by
      have h := splitNl_joinNl ("### 1. Title: The Cat".data :: "### 2. Story".data :: ls)
        (by simp)
        (by
          intro l hl
          simp only [List.mem_cons] at hl
          rcases hl with h1 | h1 | h1
          · subst h1; decide
          · subst h1; decide
          · exact (hls l h1).1)
      exact h
    have s1 : processLine initState "### 1. Title: The Cat".data =
        ⟨"The Cat".data, [], [], [], PSec.title⟩ := by decide
    have s2 : processLine ⟨"The Cat".data, [], [], [], PSec.title⟩ "### 2. Story".data =
        ⟨"The Cat".data, [], [], [], PSec.english⟩ := by decide
    have hfold : scanText (String.mk (joinNl ("### 1. Title: The Cat".data ::
        "### 2. Story".data :: ls))) = ⟨"The Cat".data, bodyAcc ls, [], [], PSec.english⟩ := by
      unfold scanText
      rw [hsplit, List.foldl_cons, List.foldl_cons, s1, s2]
      rw [english_fold ls _ rfl (fun l hl =>
        ⟨(hls l hl).2.1, (hls l hl).2.2.1, (hls l hl).2.2.2⟩)]
      rfl
    simp only [parseTemplate, hfold]
    rw [if_neg (by simp [List.isEmpty_iff, hbody])]
    rfl

/-- Witness for C7 at concrete inputs: a vocabulary section with no matching
line still parses, and a title-and-body-only template gives empty vocabulary
and empty translation. -/
theorem c7_witness :
    parseTemplate "### 1. Title: A\n### 2. B\nhi\n### 3. V\nnothing here" =
      some ⟨"A", "hi", [], ""⟩ ∧
    parseTemplate (String.mk (joinNl ("### 1. Title: The Cat".data ::
        "### 2. Story".data :: ["Hello.".data]))) =
      some ⟨"The Cat", String.mk (jsTrim (bodyAcc ["Hello.".data])), [], ""⟩ := by
  constructor
  · have h := (c7_optional_sections).1 "### 1. Title: A\n### 2. B\nhi\n### 3. V\nnothing here"
      (by decide) (by decide)
    rw [h]
    decide
  · exact (c7_optional_sections).2 ["Hello.".data] (by decide) (by decide)

section ParagraphShell

theorem paraSplitF_cons : ∀ (fuel : Nat) (acc l : List Char),
    ∃ p ps, paraSplitF fuel acc l = p :: ps := by
  intro fuel
  induction fuel with
  | zero => intro acc l; exact ⟨acc.reverse, [], rfl⟩
  | succ f ih =>
      intro acc l
      cases l with
      | nil => exact ⟨acc.reverse, [], rfl⟩
      | cons c t =>
          rw [paraSplitF]
          by_cases h : (c = '\n' && t.head? = some '\n') = true
          · rw [if_pos h]
            exact ⟨acc.reverse, paraSplitF f [] (t.dropWhile (fun x => x = '\n')), rfl⟩
          · rw [if_neg h]
            exact ih (c :: acc) t

theorem brGo_prefix_p (pre : List Char) (x : List Char) :
    brGo pre ('<' :: 'p' :: '>' :: x) =
      '<' :: 'p' :: '>' :: brGo ('>' :: 'p' :: '<' :: pre) x := by
  rw [brGo, if_neg (by simp), brGo, if_neg (by simp), brGo, if_neg (by simp)]

theorem brGo_suffix_close : ∀ (a pre : List Char),
    ∃ m, brGo pre (a ++ "</p>".data) = m ++ "</p>".data := by
  intro a
  induction a with
  | nil =>
      intro pre
      refine ⟨[], ?_⟩
      show brGo pre ('<' :: '/' :: 'p' :: '>' :: []) = _
      rw [brGo, if_neg (by simp), brGo, if_neg (by simp), brGo, if_neg (by simp),
        brGo, if_neg (by simp), brGo]
      rfl
  | cons c a ih =>
      intro pre
      rw [List.cons_append, brGo]
      by_cases h : (c = '\n' && !keyPref ['>', 'p', '/', '<'] pre &&
          !keyPref "<p>".data (a ++ "</p>".data)) = true
      · rw [if_pos h]
        obtain ⟨m, hm⟩ := ih (c :: pre)
        exact ⟨"<br>".data ++ m, by rw [hm]; simp⟩
      · rw [if_neg h]
        obtain ⟨m, hm⟩ := ih (c :: pre)
        exact ⟨c :: m, by rw [hm]; simp⟩

theorem joinNl_wrap_suffix : ∀ (ps : List (List Char)) (p : List Char),
    ∃ pre, joinNl ((p :: ps).map paraWrap) = pre ++ "</p>".data := by
  intro ps
  induction ps with
  | nil =>
      intro p
      exact ⟨"<p>".data ++ jsTrim p, by simp [joinNl, paraWrap, List.append_assoc]⟩
  | cons q ps ih =>
      intro p
      obtain ⟨pre, hpre⟩ := ih q
      refine ⟨paraWrap p ++ '\n' :: pre, ?_⟩
      rw [show joinNl ((p :: q :: ps).map paraWrap) =
        paraWrap p ++ '\n' :: joinNl ((q :: ps).map paraWrap) from rfl]
      rw [hpre]
      simp

end ParagraphShell

/-- C10: for every non-empty input the renderer output starts with a
paragraph open marker and ends with a paragraph close marker: the result is
a concatenation of paragraph containers even for whitespace-only or
markup-free input. -/
theorem c10_paragraph_shell (t : String) (h : t ≠ "") :
    (∃ mid, (markdownToHtml t).data = "<p>".data ++ mid) ∧
    (∃ pre, (markdownToHtml t).data = pre ++ "</p>".data) := by
  unfold markdownToHtml
  rw [if_neg h]
  have hdata : ∀ l : List Char, (String.mk l).data = l := fun l => rfl
  rw [hdata]
  unfold mdPipeline paraSplit
  obtain ⟨p, ps, hps⟩ := paraSplitF_cons (italGo none (boldGo t.data)).length []
    (italGo none (boldGo t.data))
  rw [hps]
  constructor
  · have hjoin : ∃ y, joinNl ((p :: ps).map paraWrap) = "<p>".data ++ y := by
      cases ps with
      | nil => exact ⟨jsTrim p ++ "</p>".data, by simp [joinNl, paraWrap]⟩
      | cons q ps2 =>
          refine ⟨jsTrim p ++ "</p>".data ++ '\n' :: joinNl ((q :: ps2).map paraWrap), ?_⟩
          rw [show joinNl ((p :: q :: ps2).map paraWrap) =
            paraWrap p ++ '\n' :: joinNl ((q :: ps2).map paraWrap) from rfl]
          simp [paraWrap]
    obtain ⟨y, hy⟩ := hjoin
    rw [hy]
    rw [show "<p>".data ++ y = '<' :: 'p' :: '>' :: y from rfl]
    rw [brGo_prefix_p]
    exact ⟨brGo ('>' :: 'p' :: '<' :: []) y, rfl⟩
  · obtain ⟨pre0, hpre0⟩ := joinNl_wrap_suffix ps p
    rw [hpre0]
    obtain ⟨m, hm⟩ := brGo_suffix_close pre0 []
    exact ⟨m, hm⟩

/-- Witness for C10 at a concrete non-empty input. -/
theorem c10_witness :
    (∃ mid, (markdownToHtml "hi").data = "<p>".data ++ mid) ∧
    (∃ pre, (markdownToHtml "hi").data = pre ++ "</p>".data) :=
  c10_paragraph_shell "hi" (by decide)

section EntryInvariant

theorem dropWhile_eq_drop {p : Char → Bool} (l : List Char) :
    l.dropWhile p = l.drop (l.takeWhile p).length := by
  induction l with
  | nil => rfl
  | cons c t ih => by_cases h : p c <;> simp [List.dropWhile, List.takeWhile, h, ih]

theorem isTerm_imp_ws (c : Char) (h : isTerm c = true) : isWS c = true := by
  simp only [isTerm, Bool.or_eq_true, decide_eq_true_eq] at h
  rcases h with ((h | h) | h) | h
  · subst h; decide
  · subst h; decide
  · simp [isWS, h]
  · simp [isWS, h]

theorem ws_imp_sep (c : Char) (h : isWS c = true) : isSepClass c = true := by
  simp [isSepClass, h]

theorem not_ws_term (c : Char) (h : isWS c = false) : isTerm c = false := by
  revert h
  cases ht : isTerm c
  · simp
  · simp [isTerm_imp_ws c ht]

theorem not_sep_ws (c : Char) (h : isSepClass c = false) : isWS c = false := by
  revert h
  cases hw : isWS c
  · simp
  · simp [ws_imp_sep c hw]

theorem capAfterClass_nonempty_trim (rs : List Char) (c : Char)
    (hc : isWS c = false) (m : List Char)
    (hcap : capAfterClass (rs ++ [c]) = some m) : jsTrim m ≠ [] := by
  unfold capAfterClass at hcap
  cases hD : (rs ++ [c]).dropWhile isSepClass with
  | cons d D2 =>
      have hd_sep : isSepClass d = false :=
        head?_dropWhile_false isSepClass (rs ++ [c]) d (by simp [hD])
      have hd_ws : isWS d = false := not_sep_ws d hd_sep
      have hd_term : isTerm d = false := not_ws_term d hd_ws
      have hdrop : (rs ++ [c]).drop ((rs ++ [c]).takeWhile isSepClass).length = d :: D2 := by
        rw [← dropWhile_eq_drop]; exact hD
      cases hk : ((rs ++ [c]).takeWhile isSepClass).length with
      | zero => rw [hk] at hcap; exact absurd hcap (by simp [capTry])
      | succ j =>
          rw [hk] at hcap
          rw [hk] at hdrop
          simp only [capTry, hdrop] at hcap
          rw [List.takeWhile_cons, hd_term] at hcap
          simp only [Bool.not_false, if_true] at hcap
          rw [if_neg (by simp)] at hcap
          have hm : m = d :: D2.takeWhile (fun x => !isTerm x) := by
            injection hcap with h2
            exact h2.symm
          rw [hm]
          exact jsTrim_head_nonws _ hd_ws
  | nil =>
      have hall : ∀ x ∈ rs ++ [c], isSepClass x = true := List.dropWhile_eq_nil_iff.mp hD
      have htw : (rs ++ [c]).takeWhile isSepClass = rs ++ [c] := takeWhile_all _ hall
      rw [htw] at hcap
      have hlen : (rs ++ [c]).length = rs.length + 1 := by simp
      rw [hlen] at hcap
      have hdropall : (rs ++ [c]).drop (rs.length + 1) = [] := by
        apply List.drop_eq_nil_of_le
        simp
      simp only [capTry, hdropall, List.takeWhile_nil, if_pos] at hcap
      have hcterm : isTerm c = false := not_ws_term c hc
      cases rs with
      | nil => exact absurd hcap (by simp [capTry])
      | cons r0 rt =>
          have hdc : ((r0 :: rt) ++ [c]).drop (rt.length + 1) = [c] :=
            List.drop_left (r0 :: rt) [c]
          rw [show (r0 :: rt).length = rt.length + 1 from rfl] at hcap
          simp only [capTry, hdc] at hcap
          rw [List.takeWhile_cons, hcterm] at hcap
          simp only [Bool.not_false, if_true, List.takeWhile_nil] at hcap
          rw [if_neg (by simp)] at hcap
          have hm : m = [c] := by
            injection hcap with h2
            exact h2.symm
          rw [hm]
          rw [jsTrim_single_nonws hc]
          simp

theorem vocabCore_suffix : ∀ (l acc w m : List Char), vocabCore acc l = some (w, m) →
    ∃ pre suf, l = pre ++ suf ∧ capAfterClass suf = some m := by
  intro l
  induction l with
  | nil => intro acc w m h; simp [vocabCore] at h
  | cons c t ih =>
      intro acc w m h
      rw [vocabCore] at h
      split at h
      · rename_i hcond
        cases hcap : capAfterClass t.tail with
        | some m2 =>
            rw [hcap] at h
            have hm2 : m2 = m := by
              injection h with h2
              rw [Prod.mk.injEq] at h2
              exact h2.2
            have hhd : t.head? = some '*' := by
              simp only [Bool.and_eq_true, decide_eq_true_eq] at hcond
              exact hcond.1.2
            cases t with
            | nil => simp at hhd
            | cons d t2 =>
                refine ⟨[c, d], t2, by simp, ?_⟩
                rw [← hm2]
                exact hcap
        | none =>
            rw [hcap] at h
            obtain ⟨pre, suf, hps, hc2⟩ := ih (c :: acc) w m h
            exact ⟨c :: pre, suf, by simp [hps], hc2⟩
      · split at h
        · exact absurd h (by simp)
        · obtain ⟨pre, suf, hps, hc2⟩ := ih (c :: acc) w m h
          exact ⟨c :: pre, suf, by simp [hps], hc2⟩

theorem vocabMatch_suffix (T w m : List Char) (h : vocabMatch T = some (w, m)) :
    ∃ pre suf, T = pre ++ suf ∧ capAfterClass suf = some m := by
  cases T with
  | nil => simp [vocabMatch] at h
  | cons b rest =>
      rw [vocabMatch] at h
      split at h
      · split at h
        · rename_i r2 heq
          obtain ⟨pre, suf, hps, hc2⟩ := vocabCore_suffix r2 [] w m h
          have hrest : rest = rest.takeWhile isWS ++ ('*' :: '*' :: (pre ++ suf)) := by
            rw [← hps, ← heq, List.takeWhile_append_dropWhile]
          refine ⟨b :: (rest.takeWhile isWS ++ ('*' :: '*' :: pre)), suf, ?_, hc2⟩
          conv_lhs => rw [hrest]
          simp
        · exact absurd h (by simp)
      · exact absurd h (by simp)

theorem vocabMatch_trim_meaning (line w m : List Char)
    (h : vocabMatch (jsTrim line) = some (w, m)) : jsTrim m ≠ [] := by
  obtain ⟨pre, suf, hps, hcap⟩ := vocabMatch_suffix _ w m h
  cases hsuf : suf with
  | nil =>
      rw [hsuf] at hcap
      exact absurd hcap (by simp [capAfterClass, capTry])
  | cons s0 st2 =>
      obtain ⟨c, rs, hrc⟩ : ∃ c rs, suf = rs ++ [c] := by
        cases hr : suf.reverse with
        | nil => rw [hsuf] at hr; simp at hr
        | cons c rr =>
            refine ⟨c, rr.reverse, ?_⟩
            rw [← List.reverse_reverse suf, hr]
            simp
      have hlast : (jsTrim line).reverse.head? = some c := by
        rw [hps, hrc]
        simp
      have hcws : isWS c = false := jsTrim_rev_head_nonws hlast
      rw [hrc] at hcap
      exact capAfterClass_nonempty_trim rs c hcws m hcap

theorem collectLine_vocab_shape (st : ScanState) (line trimmed : List Char) :
    (collectLine st line trimmed).vocab = st.vocab ∨
    ∃ w m, vocabMatch trimmed = some (w, m) ∧
      (collectLine st line trimmed).vocab = st.vocab ++ [(jsTrim w, jsTrim m)] := by
  by_cases h1 : kwTransHeader trimmed = true
  · left; simp [collectLine, h1]
  have h1f : kwTransHeader trimmed = false := by
    revert h1; cases kwTransHeader trimmed <;> simp
  by_cases h2 : kwVocabHeader trimmed = true
  · left; simp [collectLine, h1f, h2]
  have h2f : kwVocabHeader trimmed = false := by
    revert h2; cases kwVocabHeader trimmed <;> simp
  cases hcur : st.current with
  | unset => left; simp [collectLine, h1f, h2f, hcur]
  | title =>
      left
      by_cases h3 : (!trimmed.isEmpty && st.title.isEmpty) = true <;>
        simp [collectLine, h1f, h2f, hcur, h3]
  | english => left; simp [collectLine, h1f, h2f, hcur]
  | vocab =>
      cases hvm : vocabMatch trimmed with
      | none => left; simp [collectLine, h1f, h2f, hcur, hvm]
      | some wm =>
          obtain ⟨w0, m0⟩ := wm
          right
          exact ⟨w0, m0, rfl, by simp [collectLine, h1f, h2f, hcur, hvm]⟩
  | translation =>
      left
      by_cases h3 : subHeaderTest trimmed = true
      · by_cases h4 : (stripTitleTag (stripMarker trimmed)).isEmpty = true <;>
          simp [collectLine, h1f, h2f, hcur, h3, h4]
      · have h3f : subHeaderTest trimmed = false := by
          revert h3; cases subHeaderTest trimmed <;> simp
        simp [collectLine, h1f, h2f, hcur, h3f]

theorem processLine_vocab_shape (st : ScanState) (line : List Char) :
    (processLine st line).vocab = st.vocab ∨
    ∃ w m, vocabMatch (jsTrim line) = some (w, m) ∧
      (processLine st line).vocab = st.vocab ++ [(jsTrim w, jsTrim m)] := by
  have hc := collectLine_vocab_shape st line (jsTrim line)
  simp only [processLine]
  cases hh : headerNum (jsTrim line) with
  | none => exact hc
  | some nc =>
      obtain ⟨n, c⟩ := nc
      by_cases e1 : n = 1
      · left; simp [e1]
      · by_cases e2 : n = 2
        · left; simp [e1, e2]
        · by_cases e3 : n = 3
          · left; simp [e1, e2, e3]
          · by_cases e4 : n = 4
            · left; simp [e1, e2, e3, e4]
            · simp only [if_neg e1, if_neg e2, if_neg e3, if_neg e4]
              exact hc

theorem processLine_entries (st : ScanState) (line : List Char)
    (h : ∀ p ∈ st.vocab, GoodEntry p) :
    ∀ p ∈ (processLine st line).vocab, GoodEntry p := by
  rcases processLine_vocab_shape st line with hcase | ⟨w, m, hvm, hcase⟩
  · rw [hcase]; exact h
  · rw [hcase]
    intro p hp
    rcases List.mem_append.mp hp with hp1 | hp2
    · exact h p hp1
    · have hpc : p = (jsTrim w, jsTrim m) := by simpa using hp2
      subst hpc
      exact ⟨(jsTrim_idem w).symm, (jsTrim_idem m).symm,
        vocabMatch_trim_meaning line w m hvm⟩

theorem foldl_entries : ∀ (lines : List (List Char)) (st : ScanState),
    (∀ p ∈ st.vocab, GoodEntry p) →
    ∀ p ∈ (lines.foldl processLine st).vocab, GoodEntry p := by
  intro lines
  induction lines with
  | nil => intro st h; simpa using h
  | cons l ls ih =>
      intro st h
      rw [List.foldl_cons]
      exact ih _ (processLine_entries st l h)

end EntryInvariant

/-- C9 amended: in every successful parse result each vocabulary entry is
free of leading and trailing whitespace in both its word and its meaning
(both captures are trimmed), and the meaning is non-empty; the word itself
may be empty (see the counterexample). -/
theorem c9_entry_invariant (text : String) (r : ParsedChapter)
    (h : parseTemplate text = some r) :
    ∀ v ∈ r.vocab, v.word.data = jsTrim v.word.data ∧
      v.meaning.data = jsTrim v.meaning.data ∧ v.meaning.data ≠ [] := by
  intro v hv
  have hscan : ∀ p ∈ (scanText text).vocab, GoodEntry p :=
    foldl_entries _ initState (by simp [initState]) 
  simp only [parseTemplate] at h
  by_cases hc : ((scanText text).title.isEmpty ||
      (jsTrim (scanText text).english).isEmpty) = true
  · rw [if_pos hc] at h
    exact absurd h (by simp)
  · rw [if_neg hc] at h
    injection h with h2
    subst h2
    simp only [List.mem_map] at hv
    obtain ⟨p, hp, hpv⟩ := hv
    obtain ⟨g1, g2, g3⟩ := hscan p hp
    subst hpv
    exact ⟨g1, g2, g3⟩

/-- Witness for the amended C9 at a concrete parse with one entry. -/
theorem c9_witness :
    parseTemplate "### 1. Title: T\n### 2. S\nbody\n### 3. V\n* **rusty**: covered with rust" =
      some ⟨"T", "body", [⟨"rusty", "covered with rust"⟩], ""⟩ ∧
    (("rusty" : String).data = jsTrim ("rusty" : String).data ∧
     ("covered with rust" : String).data = jsTrim ("covered with rust" : String).data ∧
     ("covered with rust" : String).data ≠ []) := by
  refine ⟨by decide, ?_⟩
  exact c9_entry_invariant
    "### 1. Title: T\n### 2. S\nbody\n### 3. V\n* **rusty**: covered with rust"
    ⟨"T", "body", [⟨"rusty", "covered with rust"⟩], ""⟩ (by decide)
    ⟨"rusty", "covered with rust"⟩ (by simp)

end StoryReader
